import Mathlib

set_option autoImplicit false

/-
  Verification of the command interpreter and virtual-filesystem (VFS)
  path-resolution engine of the terminal web application
  (src/utils/commandProcessor.ts).

  Strings are modelled as lists of characters (`Str := List Char`);
  JavaScript's `String.prototype.split(sep)`, `Array.prototype.join(sep)`,
  `substring(1)` and `startsWith` are modelled by the executable functions
  below, matching the JS semantics (in particular `''.split('/') = ['']`).
-/

namespace TerminalSpec

abbrev Str := List Char

/-- Coercion from Lean string literals to the character-list model. -/
def str (s : String) : Str := s.data

/-- Auxiliary worker for JS `String.prototype.split(sep)`: `acc` holds the
current chunk (reversed). -/
def splitAux (sep : Char) : List Char → List Char → List (List Char)
  | [], acc => [acc.reverse]
  | c :: cs, acc =>
    if c = sep then acc.reverse :: splitAux sep cs []
    else splitAux sep cs (c :: acc)

/-- JS `s.split(sep)` (for a one-character separator). -/
def jsSplit (s : Str) (sep : Char) : List Str := splitAux sep s []

/-- JS `parts.join(sep)` (for a one-character separator). -/
def joinChar (sep : Char) : List Str → Str
  | [] => []
  | [s] => s
  | s :: t :: rest => s ++ sep :: joinChar sep (t :: rest)

/-- JS `path.startsWith('/')`. -/
def startsWithSlash : Str → Bool
  | '/' :: _ => true
  | _ => false

/-- One step of the segment fold in `resolvePath` (lines 31-34 of
commandProcessor.ts): `..` pops, `.` and empty segments are dropped,
anything else is pushed. -/
def resolveStep (acc : List Str) (part : Str) : List Str :=
  if part = str ".." then acc.dropLast
  else if part = str "." ∨ part = [] then acc
  else acc ++ [part]

/-- Model of `resolvePath` from commandProcessor.ts lines 25-36.  An empty input
returns `currentPath`; an input starting with `/` is returned verbatim
(`/` alone becomes `~`); `~` resolves to `~`; otherwise the segments of
`currentPath` and of the input are folded with `resolveStep`. -/
def resolvePath (path currentPath : Str) : Str :=
  if path = [] then currentPath
  else if startsWithSlash path then (if path = ['/'] then ['~'] else path)
  else if path = ['~'] then ['~']
  else
    let parts := (if currentPath = ['~'] then []
                  else jsSplit (currentPath.drop 1) '/') ++ jsSplit path '/'
    let np := parts.foldl resolveStep []
    if np = [] then ['~'] else '/' :: joinChar '/' np

/-- The segment list of a path string, read back the way `getObjectByPath`
reads it: `~` has no segments, otherwise the characters after the leading
`/` are split on `/`. -/
def pathSegs (p : Str) : List Str :=
  if p = ['~'] then [] else jsSplit (p.drop 1) '/'

/-- A canonical path: `~`, or `/seg1/.../segN` with every segment
non-empty and distinct from `.` and `..`. -/
def canonical (p : Str) : Prop :=
  p = ['~'] ∨ (startsWithSlash p = true ∧
    ∀ s ∈ pathSegs p, s ≠ [] ∧ s ≠ str "." ∧ s ≠ str "..")

instance (p : Str) : Decidable (canonical p) := by
  unfold canonical
  infer_instance

/-- A good output segment: non-empty, not `.`, not `..`, and free of `/`. -/
def goodSeg (s : Str) : Prop :=
  s ≠ [] ∧ s ≠ str "." ∧ s ≠ str ".." ∧ '/' ∉ s

/-
  The VFS tree.  In the source the tree is a plain nested JSON object
  `{ '~': { name: entry, ... } }` where an entry is either a string (a
  file's content) or a nested object (a directory).  The root object
  always maps `~` to a directory (useVFS initialises it to `{'~': {}}`),
  so a tree is modelled by the association list of the root directory's
  children.  JS object key lookup/assignment/deletion are modelled by
  `lookupKV`, `jsInsert` and `jsRemove` (assignment to an existing key
  keeps its position, a new key is appended, matching JS enumeration
  order for string keys).
-/

inductive Entry where
  | file : Str → Entry
  | dir : List (Str × Entry) → Entry

abbrev Dir := List (Str × Entry)

def lookupKV : Dir → Str → Option Entry
  | [], _ => none
  | (k, v) :: rest, key => if k = key then some v else lookupKV rest key

def jsInsert : Dir → Str → Entry → Dir
  | [], k, v => [(k, v)]
  | (k', v') :: rest, k, v =>
    if k' = k then (k', v) :: rest else (k', v') :: jsInsert rest k v

def jsRemove : Dir → Str → Dir
  | [], _ => []
  | (k', v') :: rest, k =>
    if k' = k then rest else (k', v') :: jsRemove rest k

def hasKey (m : Dir) (k : Str) : Bool := (lookupKV m k).isSome

/-- JS `parts.pop()`: splits a list into its initial part and last element. -/
def splitLast {α : Type} : List α → Option (List α × α)
  | [] => none
  | [a] => some ([], a)
  | a :: b :: rest =>
    (splitLast (b :: rest)).map (fun pr => (a :: pr.1, pr.2))

/-- The walk of `getObjectByPath` (lines 42-45): each segment must be a
key of the current node, which must be a directory to descend further. -/
def getWalk : Entry → List Str → Option Entry
  | e, [] => some e
  | .dir m, p :: ps =>
    match lookupKV m p with
    | some e => getWalk e ps
    | none => none
  | .file _, _ :: _ => none

/-- Model of `getObjectByPath` from commandProcessor.ts lines 37-47. -/
def getObjectByPath (root : Dir) (path : Str) : Option Entry :=
  if path = ['~'] then some (.dir root)
  else if startsWithSlash path = false then none
  else getWalk (.dir root) (jsSplit (path.drop 1) '/')

/-- The parent walk of `setObjectByPath` (lines 53-58): every parent
segment must already exist as a directory; the value is assigned at the
final name, overwriting any existing entry. -/
def setWalk (value : Entry) (fileName : Str) : Dir → List Str → Option Dir
  | m, [] => some (jsInsert m fileName value)
  | m, p :: ps =>
    match lookupKV m p with
    | some (.dir m') => (setWalk value fileName m' ps).map (fun m'' => jsInsert m p (.dir m''))
    | _ => none

/-- Model of `setObjectByPath` from commandProcessor.ts lines 48-60; `none` models
a `false` return, `some root'` a `true` return with the mutated tree. -/
def setObjectByPath (root : Dir) (path : Str) (value : Entry) : Option Dir :=
  if path = ['~'] then none
  else if startsWithSlash path = false then none
  else
    match splitLast (jsSplit (path.drop 1) '/') with
    | none => none
    | some (parents, fileName) =>
      if fileName = [] then none else setWalk value fileName root parents

/-- The parent walk of `deleteObjectByPath` (lines 66-75): same parent
walk as `setWalk`; the final name must exist as an own key of the parent
and is removed. -/
def delWalk (fileName : Str) : Dir → List Str → Option Dir
  | m, [] => if hasKey m fileName then some (jsRemove m fileName) else none
  | m, p :: ps =>
    match lookupKV m p with
    | some (.dir m') => (delWalk fileName m' ps).map (fun m'' => jsInsert m p (.dir m''))
    | _ => none

/-- Model of `deleteObjectByPath` from commandProcessor.ts lines 61-76. -/
def deleteObjectByPath (root : Dir) (path : Str) : Option Dir :=
  if path = ['~'] then none
  else if startsWithSlash path = false then none
  else
    match splitLast (jsSplit (path.drop 1) '/') with
    | none => none
    | some (parents, fileName) =>
      if fileName = [] then none else delWalk fileName root parents

/-- Fuel-indexed well-formedness of a tree node: directory keys are
pairwise distinct and non-empty (as JS object keys of trees built by the
mutation commands are), and children are well-formed.  The fuel bounds
the nesting depth so the predicate is structurally recursive and
computable. -/
def wfB : Nat → Entry → Bool
  | _, .file _ => true
  | 0, .dir _ => false
  | n + 1, .dir m =>
    decide ((m.map Prod.fst).Nodup) &&
      m.all (fun kv => decide (kv.1 ≠ []) && wfB n kv.2)

/-
  The command layer (processCommand, lines 94-572).  A session's auth
  context is `Option User`; the VFS context carries the tree and the
  session's current path.  Each handler is a pure function from
  (auth, state, args) to (output lines, new state); `updateVFS` is
  modelled by returning the mutated tree in the new state (the JSON
  deep copy of the source is the identity on this structural model).
-/

structure User where
  username : Str
  role : Str

abbrev Auth := Option User

structure VfsState where
  vfs : Dir
  currentPath : Str

/-- JS `args[0] || default`: the first argument if present and non-empty,
otherwise the default. -/
def argOr : List Str → Str → Str
  | [], d => d
  | a :: _, d => if a = [] then d else a

def permFsMsg : Str := str "Permission denied. Please log in to use the file system."

def permMsg : Str := str "Permission denied."

def sudoDenialMsg : Str := str "sudo: user not in sudoers file. This incident will be reported."

def sudoNotFoundMsg (c : Str) : Str := str "sudo: command not found: " ++ c

def zshNotFoundMsg (c : Str) : Str := str "zsh: command not found: " ++ c

def lsErrMsg (p : Str) : Str :=
  str "ls: cannot access \x27" ++ p ++ str "\x27: Not a directory or does not exist"

def catUsageMsg : Str := str "Usage: cat <file>"

def catErrMsg (a : Str) : Str :=
  str "cat: \x27" ++ a ++ str "\x27: Not a file or does not exist"

def cdErrMsg (t : Str) : Str := str "cd: no such file or directory: " ++ t

def mkdirUsageMsg : Str := str "Usage: mkdir <directory_name>"

def mkdirExistsMsg (a : Str) : Str :=
  str "mkdir: cannot create directory \x27" ++ a ++ str "\x27: File exists"

def mkdirInvalidMsg (a : Str) : Str :=
  str "mkdir: cannot create directory \x27" ++ a ++ str "\x27: Invalid path"

def touchUsageMsg : Str := str "Usage: touch <file_name>"

def touchInvalidMsg (a : Str) : Str :=
  str "touch: cannot create file \x27" ++ a ++ str "\x27: Invalid path"

def rmUsageMsg : Str := str "Usage: rm [-r] <file_or_directory>"

def rmNoSuchMsg (t : Str) : Str :=
  str "rm: cannot remove \x27" ++ t ++ str "\x27: No such file or directory"

def rmNotEmptyMsg (t : Str) : Str :=
  str "rm: cannot remove \x27" ++ t ++
    str "\x27: Directory not empty. Use -r to remove recursively."

def headUsageMsg : Str := str "Usage: head [-n lines] <file>"

def headNoSuchMsg (f : Str) : Str := str "head: " ++ f ++ str ": No such file"

/-- JS truthiness of `getObjectByPath`'s result: `undefined` and the empty
string are falsy; every object (directory) and non-empty string is truthy. -/
def truthyOpt : Option Entry → Bool
  | none => false
  | some (.file s) => !s.isEmpty
  | some (.dir _) => true

/-- Whether an optional entry is a directory (the `typeof content ===
'object' && content !== null` test of the source). -/
def isDirOpt : Option Entry → Bool
  | some (.dir _) => true
  | _ => false

def lsEntryRender (kv : Str × Entry) : Str :=
  match kv.2 with
  | .dir _ => str "<span style=\"color:var(--cyan);\">" ++ kv.1 ++ str "/</span>"
  | .file _ => kv.1

/-- Handler `ls` (lines 152-158). -/
def lsCmd (auth : Auth) (st : VfsState) (args : List Str) : List Str × VfsState :=
  match auth with
  | none => ([permFsMsg], st)
  | some _ =>
    let path := resolvePath (argOr args st.currentPath) st.currentPath
    match getObjectByPath st.vfs path with
    | some (.dir m) => (m.map lsEntryRender, st)
    | _ => ([lsErrMsg path], st)

/-- Handler `cat` (lines 159-164). -/
def catCmd (auth : Auth) (st : VfsState) (args : List Str) : List Str × VfsState :=
  match auth with
  | none => ([permMsg], st)
  | some _ =>
    match args with
    | [] => ([catUsageMsg], st)
    | a :: _ =>
      if a = [] then ([catUsageMsg], st)
      else
        match getObjectByPath st.vfs (resolvePath a st.currentPath) with
        | some (.file content) => (jsSplit content '\n', st)
        | _ => ([catErrMsg a], st)

/-- Handler `cd` (lines 165-170). -/
def cdCmd (auth : Auth) (st : VfsState) (args : List Str) : List Str × VfsState :=
  match auth with
  | none => ([permMsg], st)
  | some _ =>
    let target := argOr args ['~']
    let newPath := resolvePath target st.currentPath
    match getObjectByPath st.vfs newPath with
    | some (.dir _) => ([], ⟨st.vfs, newPath⟩)
    | _ => ([cdErrMsg target], st)

/-- Handler `pwd` (line 171). -/
def pwdCmd (auth : Auth) (st : VfsState) (_args : List Str) : List Str × VfsState :=
  match auth with
  | some _ => ([st.currentPath], st)
  | none => ([['/']], st)

/-- Handler `mkdir` (lines 172-180).  Note the existence check is a JS truthiness
test on the entry found at the target path. -/
def mkdirCmd (auth : Auth) (st : VfsState) (args : List Str) : List Str × VfsState :=
  match auth with
  | none => ([permMsg], st)
  | some _ =>
    match args with
    | [] => ([mkdirUsageMsg], st)
    | a :: _ =>
      if a = [] then ([mkdirUsageMsg], st)
      else
        let newDirPath := resolvePath a st.currentPath
        if truthyOpt (getObjectByPath st.vfs newDirPath) then
          ([mkdirExistsMsg a], st)
        else
          match setObjectByPath st.vfs newDirPath (.dir []) with
          | some v' => ([], ⟨v', st.currentPath⟩)
          | none => ([mkdirInvalidMsg a], st)

/-- Handler `touch` (lines 181-187). -/
def touchCmd (auth : Auth) (st : VfsState) (args : List Str) : List Str × VfsState :=
  match auth with
  | none => ([permMsg], st)
  | some _ =>
    match args with
    | [] => ([touchUsageMsg], st)
    | a :: _ =>
      if a = [] then ([touchUsageMsg], st)
      else
        match setObjectByPath st.vfs (resolvePath a st.currentPath) (.file []) with
        | some v' => ([], ⟨v', st.currentPath⟩)
        | none => ([touchInvalidMsg a], st)

def isNonemptyDirE : Entry → Bool
  | .dir m => !m.isEmpty
  | .file _ => false

/-- Common tail of `rm` after the target has been determined. -/
def rmGo (st : VfsState) (target : Str) (recursive : Bool) : List Str × VfsState :=
  let path := resolvePath target st.currentPath
  match getObjectByPath st.vfs path with
  | none => ([rmNoSuchMsg target], st)
  | some content =>
    if isNonemptyDirE content && !recursive then ([rmNotEmptyMsg target], st)
    else
      match deleteObjectByPath st.vfs path with
      | some v' => ([], ⟨v', st.currentPath⟩)
      | none => ([], st)

/-- Handler `rm` (lines 188-200). -/
def rmCmd (auth : Auth) (st : VfsState) (args : List Str) : List Str × VfsState :=
  match auth with
  | none => ([permMsg], st)
  | some _ =>
    match args with
    | [] => ([rmUsageMsg], st)
    | a :: rest =>
      if a = [] then ([rmUsageMsg], st)
      else if a = str "-r" then
        match rest with
        | [] => ([rmUsageMsg], st)
        | t :: _ => if t = [] then ([rmUsageMsg], st) else rmGo st t true
      else rmGo st a false

def leadDigitsAux : List Char → Nat → Nat
  | [], acc => acc
  | c :: cs, acc =>
    if c.isDigit then leadDigitsAux cs (acc * 10 + (c.toNat - Char.toNat '0'))
    else acc

def leadDigits : Str → Option Nat
  | [] => none
  | c :: cs => if c.isDigit then some (leadDigitsAux (c :: cs) 0) else none

/-- JS `parseInt(s)` restricted to whitespace-free tokens (command
arguments never contain spaces): optional sign followed by leading
decimal digits; `none` models NaN. -/
def jsParseInt : Str → Option Int
  | '-' :: rest => (leadDigits rest).map (fun n => -(n : Int))
  | '+' :: rest => (leadDigits rest).map (fun n => (n : Int))
  | s => (leadDigits s).map (fun n => (n : Int))

/-- JS `l.slice(0, n)` for a possibly negative end index. -/
def jsSliceTo {α : Type} (l : List α) (n : Int) : List α :=
  if 0 ≤ n then l.take n.toNat
  else l.take (l.length - min l.length (-n).toNat)

/-- Handler `head` (lines 224-231).  Note: unlike `ls`/`cat`/`cd`/`mkdir`/
`touch`/`rm`/`tree`, this handler performs no `auth.user` check before
consulting the VFS (the `auth` parameter is in scope but unused, exactly
as in the source). -/
def headCmd (auth : Auth) (st : VfsState) (args : List Str) : List Str × VfsState :=
  let fileOpt : Option Str :=
    match args with
    | [] => none
    | a :: rest =>
      if a = str "-n" then
        match rest with
        | _ :: f :: _ => if f = [] then none else some f
        | _ => none
      else if a = [] then none else some a
  let nLines : Int :=
    match args with
    | a :: n1 :: _ =>
      if a = str "-n" then
        match jsParseInt n1 with
        | some k => if k = 0 then (10 : Int) else k
        | none => 10
      else 10
    | _ => 10
  match fileOpt with
  | none => ([headUsageMsg], st)
  | some f =>
    match getObjectByPath st.vfs (resolvePath f st.currentPath) with
    | some (.file content) => (jsSliceTo (jsSplit content '\n') nLines, st)
    | _ => ([headNoSuchMsg f], st)

/-- Handler `echo` (line 478). -/
def echoCmd (_auth : Auth) (st : VfsState) (args : List Str) : List Str × VfsState :=
  ([joinChar ' ' args], st)

/-- Handler `whoami` (line 123). -/
def whoamiCmd (auth : Auth) (st : VfsState) (_args : List Str) : List Str × VfsState :=
  ([match auth with | some u => u.username | none => str "guest"], st)

/-- The admin-role test of the source (role strictly equal to admin). -/
def isAdmin : Auth → Bool
  | some u => decide (u.role = str "admin")
  | none => false

/-- The verbs of the modelled registry subset (the auth/VFS core the
claims are about). -/
def registered (cmd : Str) : Bool :=
  decide (cmd ∈ [str "sudo", str "ls", str "cat", str "cd", str "pwd",
    str "mkdir", str "touch", str "rm", str "head", str "echo", str "whoami"])

/-- Dispatch of `processCommand` restricted to the modelled registry
subset.  `sudo` (lines 144-149) denies unless `auth.user?.role ===
'admin'`, otherwise re-dispatches the subcommand with the elevation flag
set to `true`; it never touches the state on denial. -/
def runCommand (auth : Auth) (st : VfsState) : Str → List Str → Bool → List Str × VfsState
  | cmd, args, _isSudo =>
    if cmd = str "sudo" then
      if isAdmin auth = false then ([sudoDenialMsg], st)
      else
        match args with
        | [] => ([sudoNotFoundMsg (str "undefined")], st)
        | sub :: rest =>
          if registered sub then runCommand auth st sub rest true
          else ([sudoNotFoundMsg sub], st)
    else if cmd = str "ls" then lsCmd auth st args
    else if cmd = str "cat" then catCmd auth st args
    else if cmd = str "cd" then cdCmd auth st args
    else if cmd = str "pwd" then pwdCmd auth st args
    else if cmd = str "mkdir" then mkdirCmd auth st args
    else if cmd = str "touch" then touchCmd auth st args
    else if cmd = str "rm" then rmCmd auth st args
    else if cmd = str "head" then headCmd auth st args
    else if cmd = str "echo" then echoCmd auth st args
    else if cmd = str "whoami" then whoamiCmd auth st args
    else ([zshNotFoundMsg cmd], st)

/-
  The `watch` command (lines 440-474).  One initial `execute()` happens
  before the interval is installed (the interval is installed only when
  `executions < count`, with `executions` still 0); each interval tick
  first increments `executions`, then clears the interval when
  `executions >= count`, and then runs `execute()` regardless.
-/

/-- Number of `execute()` calls performed by the interval ticks, starting
from the given `executions` counter value, for a finite `-c` count. -/
def watchTicks (c executions : Nat) : Nat :=
  if c ≤ executions + 1 then 1 else 1 + watchTicks c (executions + 1)
termination_by c - executions
decreasing_by omega

/-- Total number of times `watch -c count <cmd>` executes the watched
command before its timer is cleared. -/
def watchExecutions (count : Nat) : Nat :=
  1 + (if 0 < count then watchTicks count 0 else 0)

/-
  The normalization boundary of `processCommand` (lines 558-571): a
  handler outcome is either a value (special token, array of lines, or
  null/undefined) or a thrown exception carrying a message; the
  interpreter converts every outcome into a total output envelope.
-/

structure Envelope where
  text : List Str
  special : Option Str

inductive HandlerResult where
  | lines : List Str → HandlerResult
  | special : Str → HandlerResult
  | nullish : HandlerResult

/-- Lines 561-568: the `try`/`catch` around handler invocation and result
normalization; a thrown exception becomes the single line
`Error: <message>`. -/
def normalizeOutcome : Except Str HandlerResult → Envelope
  | .ok (.special s) => ⟨[], some s⟩
  | .ok (.lines ls) => ⟨ls, none⟩
  | .ok .nullish => ⟨[], none⟩
  | .error msg => ⟨[str "Error: " ++ msg], none⟩

theorem mem_splitAux_no_sep (sep : Char) :
    ∀ (cs acc : List Char), sep ∉ acc →
      ∀ s ∈ splitAux sep cs acc, sep ∉ s := by
  intro cs
  induction cs with
  | nil =>
    intro acc hacc s hs
    simp only [splitAux, List.mem_singleton] at hs
    subst hs
    simpa using hacc
  | cons c cs ih =>
    intro acc hacc s hs
    simp only [splitAux] at hs
    by_cases hc : c = sep
    · rw [if_pos hc] at hs
      rcases List.mem_cons.mp hs with h | h
      · subst h; simpa using hacc
      · exact ih [] (by simp) s h
    · rw [if_neg hc] at hs
      refine ih (c :: acc) ?_ s hs
      simp only [List.mem_cons, not_or]
      exact ⟨fun h => hc h.symm, hacc⟩

theorem mem_jsSplit_no_sep (s : Str) (sep : Char) :
    ∀ t ∈ jsSplit s sep, sep ∉ t :=
  mem_splitAux_no_sep sep s [] (by simp)

theorem jsSplit_ne_nil (s : Str) (sep : Char) : jsSplit s sep ≠ [] := by
  unfold jsSplit
  generalize ([] : List Char) = acc
  induction s generalizing acc with
  | nil => simp [splitAux]
  | cons c cs ih =>
    simp only [splitAux]
    by_cases hc : c = sep
    · simp [hc]
    · rw [if_neg hc]; exact ih _

theorem foldl_resolveStep_good :
    ∀ (parts acc : List Str), (∀ s ∈ parts, '/' ∉ s) →
      (∀ s ∈ acc, goodSeg s) →
      ∀ s ∈ parts.foldl resolveStep acc, goodSeg s := by
  intro parts
  induction parts with
  | nil => intro acc _ hacc s hs; exact hacc s hs
  | cons p ps ih =>
    intro acc hparts hacc s hs
    simp only [List.foldl_cons] at hs
    refine ih (resolveStep acc p) (fun t ht => hparts t (List.mem_cons_of_mem _ ht)) ?_ s hs
    intro t ht
    unfold resolveStep at ht
    by_cases h1 : p = str ".."
    · rw [if_pos h1] at ht
      exact hacc t (List.dropLast_subset _ ht)
    · rw [if_neg h1] at ht
      by_cases h2 : p = str "." ∨ p = []
      · rw [if_pos h2] at ht; exact hacc t ht
      · rw [if_neg h2] at ht
        rcases List.mem_append.mp ht with h | h
        · exact hacc t h
        · rw [List.mem_singleton] at h
          subst h
          push_neg at h2
          exact ⟨h2.2, h2.1, h1, hparts t (List.mem_cons_self _ _)⟩

theorem splitAux_append (sep : Char) :
    ∀ (s cs acc : List Char), sep ∉ s →
      splitAux sep (s ++ cs) acc = splitAux sep cs (s.reverse ++ acc) := by
  intro s
  induction s with
  | nil => intro cs acc _; simp
  | cons c s ih =>
    intro cs acc hs
    have hc : ¬ c = sep := by
      intro h; exact hs (h ▸ List.mem_cons_self _ _)
    simp only [List.cons_append, splitAux, if_neg hc]
    show splitAux sep (s ++ cs) (c :: acc) = _
    rw [ih cs (c :: acc) (fun h => hs (List.mem_cons_of_mem _ h))]
    simp

theorem jsSplit_joinChar :
    ∀ (l : List Str), l ≠ [] → (∀ s ∈ l, '/' ∉ s) →
      jsSplit (joinChar '/' l) '/' = l := by
  intro l
  induction l with
  | nil => intro h; exact absurd rfl h
  | cons s rest ih =>
    intro _ hl
    cases rest with
    | nil =>
      simp only [joinChar, jsSplit]
      have := splitAux_append '/' s [] [] (hl s (List.mem_cons_self _ _))
      simpa [splitAux] using this
    | cons t rest' =>
      simp only [joinChar, jsSplit]
      rw [splitAux_append '/' s ('/' :: joinChar '/' (t :: rest')) []
            (hl s (List.mem_cons_self _ _))]
      have h2 : splitAux '/' ('/' :: joinChar '/' (t :: rest')) (s.reverse ++ []) =
          (s.reverse ++ []).reverse :: splitAux '/' (joinChar '/' (t :: rest')) [] := by
        simp [splitAux]
      rw [h2]
      simp only [List.append_nil, List.reverse_reverse]
      exact congrArg (s :: ·) (ih (by simp) (fun u hu => hl u (List.mem_cons_of_mem _ hu)))

theorem pathSegs_slash_join (np : List Str) (h : np ≠ [])
    (h2 : ∀ s ∈ np, '/' ∉ s) :
    pathSegs ('/' :: joinChar '/' np) = np := by
  unfold pathSegs
  rw [if_neg (by intro hc; injection hc with h1 _; exact absurd h1 (by decide))]
  simpa using jsSplit_joinChar np h h2

/-- Relative resolution produces a canonical path. -/
theorem resolvePath_rel_canonical (p r : Str) (hp : canonical p)
    (hr : startsWithSlash r = false) : canonical (resolvePath r p) := by
  by_cases h0 : r = []
  · subst h0
    simpa [resolvePath] using hp
  · by_cases h1 : r = ['~']
    · subst h1
      left; rfl
    · unfold resolvePath
      rw [if_neg h0, if_neg (by simp [hr]), if_neg h1]
      set parts := (if p = ['~'] then []
                    else jsSplit (p.drop 1) '/') ++ jsSplit r '/' with hparts
      set np := parts.foldl resolveStep [] with hnp
      have hpartsNoSlash : ∀ s ∈ parts, '/' ∉ s := by
        intro s hs
        rcases List.mem_append.mp hs with h | h
        · by_cases hpt : p = ['~']
          · rw [hpt] at h; simp at h
          · rw [if_neg hpt] at h
            exact mem_jsSplit_no_sep _ '/' s h
        · exact mem_jsSplit_no_sep _ '/' s h
      have hgood : ∀ s ∈ np, goodSeg s :=
        foldl_resolveStep_good parts [] hpartsNoSlash (by simp)
      by_cases hempty : np = []
      · rw [if_pos hempty]; left; rfl
      · rw [if_neg hempty]
        right
        constructor
        · rfl
        · rw [pathSegs_slash_join np hempty (fun s hs => (hgood s hs).2.2.2)]
          intro s hs
          exact ⟨(hgood s hs).1, (hgood s hs).2.1, (hgood s hs).2.2.1⟩

/-- Absolute inputs other than `/` are returned verbatim. -/
theorem resolvePath_absolute (r p : Str) (hr : startsWithSlash r = true)
    (hne : r ≠ ['/']) : resolvePath r p = r := by
  have h0 : r ≠ [] := by
    intro h; rw [h] at hr; simp [startsWithSlash] at hr
  unfold resolvePath
  rw [if_neg h0, if_pos (by simp [hr]), if_neg hne]

theorem canonical_no_dots (q : Str) (hq : canonical q) :
    ∀ s ∈ pathSegs q, s ≠ str "." ∧ s ≠ str ".." := by
  rcases hq with h | ⟨_, h⟩
  · subst h
    intro s hs
    simp [pathSegs] at hs
  · intro s hs
    exact ⟨(h s hs).2.1, (h s hs).2.2⟩

theorem lookup_jsInsert_self (m : Dir) (k : Str) (v : Entry) :
    lookupKV (jsInsert m k v) k = some v := by
  induction m with
  | nil => simp [jsInsert, lookupKV]
  | cons kv rest ih =>
    obtain ⟨k', v'⟩ := kv
    by_cases h : k' = k
    · simp [jsInsert, lookupKV, h]
    · simp [jsInsert, lookupKV, h, ih]

theorem lookup_jsInsert_ne (m : Dir) (k k' : Str) (v : Entry) (h : k' ≠ k) :
    lookupKV (jsInsert m k v) k' = lookupKV m k' := by
  induction m with
  | nil =>
    rw [jsInsert, lookupKV, lookupKV, lookupKV, if_neg (Ne.symm h)]
  | cons kv rest ih =>
    obtain ⟨k0, v0⟩ := kv
    by_cases h0 : k0 = k
    · rw [jsInsert, if_pos h0, lookupKV, lookupKV]
      rw [if_neg (fun hh : k0 = k' => h (hh.symm.trans h0))]
      rw [if_neg (fun hh : k0 = k' => h (hh.symm.trans h0))]
    · rw [jsInsert, if_neg h0, lookupKV, lookupKV]
      by_cases h1 : k0 = k'
      · rw [if_pos h1, if_pos h1]
      · rw [if_neg h1, if_neg h1]
        exact ih

theorem lookup_eq_none_of_not_mem (m : Dir) (k : Str)
    (h : k ∉ m.map Prod.fst) : lookupKV m k = none := by
  induction m with
  | nil => rfl
  | cons kv rest ih =>
    obtain ⟨k0, v0⟩ := kv
    simp only [List.map_cons, List.mem_cons, not_or] at h
    rw [lookupKV, if_neg (fun hh : k0 = k => h.1 hh.symm)]
    exact ih h.2

theorem lookup_mem_keys (m : Dir) (k : Str) (e : Entry)
    (h : lookupKV m k = some e) : k ∈ m.map Prod.fst := by
  induction m with
  | nil => simp [lookupKV] at h
  | cons kv rest ih =>
    obtain ⟨k0, v0⟩ := kv
    by_cases h0 : k0 = k
    · rw [List.map_cons, h0]
      exact List.mem_cons_self _ _
    · rw [lookupKV, if_neg h0] at h
      exact List.mem_cons_of_mem _ (ih h)

theorem lookup_jsRemove_self (m : Dir) (k : Str)
    (h : (m.map Prod.fst).Nodup) : lookupKV (jsRemove m k) k = none := by
  induction m with
  | nil => rfl
  | cons kv rest ih =>
    obtain ⟨k0, v0⟩ := kv
    simp only [List.map_cons, List.nodup_cons] at h
    by_cases h0 : k0 = k
    · subst h0
      rw [jsRemove, if_pos rfl]
      exact lookup_eq_none_of_not_mem rest k0 h.1
    · rw [jsRemove, if_neg h0, lookupKV, if_neg h0]
      exact ih h.2

theorem splitLast_eq_append {α : Type} :
    ∀ (l init : List α) (last : α), splitLast l = some (init, last) →
      l = init ++ [last] := by
  intro l
  induction l with
  | nil => intro init last h; simp [splitLast] at h
  | cons a rest ih =>
    intro init last h
    cases rest with
    | nil =>
      simp only [splitLast, Option.some.injEq, Prod.mk.injEq] at h
      rw [← h.1, ← h.2]
      rfl
    | cons b rest' =>
      simp only [splitLast, Option.map_eq_some'] at h
      obtain ⟨⟨i', l'⟩, hsl, heq⟩ := h
      have h1 : a :: i' = init := congrArg Prod.fst heq
      have h2 : l' = last := congrArg Prod.snd heq
      rw [← h1, ← h2, ih i' l' hsl]
      rfl

theorem splitLast_of_ne_nil {α : Type} :
    ∀ (l : List α), l ≠ [] → ∃ init last, splitLast l = some (init, last) := by
  intro l
  induction l with
  | nil => intro h; exact absurd rfl h
  | cons a rest ih =>
    intro _
    cases rest with
    | nil => exact ⟨[], a, rfl⟩
    | cons b rest' =>
      obtain ⟨i', l', h⟩ := ih (by simp)
      exact ⟨a :: i', l', by simp [splitLast, h]⟩

theorem lookup_mem (m : Dir) (k : Str) (e : Entry)
    (h : lookupKV m k = some e) : (k, e) ∈ m := by
  induction m with
  | nil => simp [lookupKV] at h
  | cons kv rest ih =>
    obtain ⟨k0, v0⟩ := kv
    by_cases h0 : k0 = k
    · rw [lookupKV, if_pos h0] at h
      injection h with h
      subst h0; subst h
      exact List.mem_cons_self _ _
    · rw [lookupKV, if_neg h0] at h
      exact List.mem_cons_of_mem _ (ih h)

theorem wfB_dir_parts {n : Nat} {m : Dir} (h : wfB (n + 1) (.dir m) = true) :
    (m.map Prod.fst).Nodup ∧ ∀ kv ∈ m, kv.1 ≠ [] ∧ wfB n kv.2 = true := by
  simp only [wfB, Bool.and_eq_true, List.all_eq_true, decide_eq_true_eq] at h
  exact ⟨h.1, fun kv hkv => (h.2 kv hkv).imp id id⟩

theorem wfB_dir_pos {n : Nat} {m : Dir} (h : wfB n (.dir m) = true) :
    ∃ n', n = n' + 1 := by
  cases n with
  | zero => simp [wfB] at h
  | succ n' => exact ⟨n', rfl⟩

theorem getWalk_file_ne_nil (s : Str) (l : List Str) (h : l ≠ []) :
    getWalk (.file s) l = none := by
  cases l with
  | nil => exact absurd rfl h
  | cons p ps => rfl

/-- Round trip at the walk level: a successful `setWalk` makes the walk
to the written name return the written value. -/
theorem getWalk_setWalk :
    ∀ (ps : List Str) (m : Dir) (fn : Str) (v : Entry) (m' : Dir),
      setWalk v fn m ps = some m' → getWalk (.dir m') (ps ++ [fn]) = some v := by
  intro ps
  induction ps with
  | nil =>
    intro m fn v m' h
    simp only [setWalk, Option.some.injEq] at h
    subst h
    simp [getWalk, lookup_jsInsert_self]
  | cons p ps ih =>
    intro m fn v m' h
    simp only [setWalk] at h
    rcases hl : lookupKV m p with _ | e
    · rw [hl] at h; simp at h
    · rw [hl] at h
      cases e with
      | file s => simp at h
      | dir mc =>
        simp only [Option.map_eq_some'] at h
        obtain ⟨mc', hset, heq⟩ := h
        subst heq
        simp only [List.cons_append, getWalk, lookup_jsInsert_self]
        exact ih mc fn v mc' hset

/-- A walk that succeeds makes `setWalk` along the same parents succeed,
and (in a well-formed tree) the walked names are non-empty. -/
theorem setWalk_of_getWalk :
    ∀ (ps : List Str) (n : Nat) (m : Dir) (fn : Str) (e : Entry),
      wfB n (.dir m) = true → getWalk (.dir m) (ps ++ [fn]) = some e →
      fn ≠ [] ∧ ∀ v, ∃ m', setWalk v fn m ps = some m' := by
  intro ps
  induction ps with
  | nil =>
    intro n m fn e hwf hg
    obtain ⟨n', rfl⟩ := wfB_dir_pos hwf
    simp only [List.nil_append, getWalk] at hg
    rcases hl : lookupKV m fn with _ | e0
    · rw [hl] at hg; simp at hg
    · have hmem := lookup_mem m fn e0 hl
      have hk := ((wfB_dir_parts hwf).2 _ hmem).1
      exact ⟨hk, fun v => ⟨jsInsert m fn v, rfl⟩⟩
  | cons p ps ih =>
    intro n m fn e hwf hg
    obtain ⟨n', rfl⟩ := wfB_dir_pos hwf
    simp only [List.cons_append, getWalk] at hg
    rcases hl : lookupKV m p with _ | e0
    · rw [hl] at hg; simp at hg
    · rw [hl] at hg
      cases e0 with
      | file s =>
        have hg' : getWalk (Entry.file s) (ps ++ [fn]) = some e := hg
        rw [getWalk_file_ne_nil s (ps ++ [fn]) (by simp)] at hg'
        simp at hg'
      | dir mc =>
        have hmem := lookup_mem m p _ hl
        have hwfc := ((wfB_dir_parts hwf).2 _ hmem).2
        obtain ⟨hfn, hset⟩ := ih n' mc fn e hwfc hg
        refine ⟨hfn, fun v => ?_⟩
        obtain ⟨mc', hmc'⟩ := hset v
        exact ⟨jsInsert m p (.dir mc'), by simp [setWalk, hl, hmc']⟩

/-- A walk that succeeds makes `delWalk` along the same parents succeed,
after which the same walk returns nothing. -/
theorem delWalk_of_getWalk :
    ∀ (ps : List Str) (n : Nat) (m : Dir) (fn : Str) (e : Entry),
      wfB n (.dir m) = true → getWalk (.dir m) (ps ++ [fn]) = some e →
      fn ≠ [] ∧ ∃ m', delWalk fn m ps = some m' ∧
        getWalk (.dir m') (ps ++ [fn]) = none := by
  intro ps
  induction ps with
  | nil =>
    intro n m fn e hwf hg
    obtain ⟨n', rfl⟩ := wfB_dir_pos hwf
    simp only [List.nil_append, getWalk] at hg
    rcases hl : lookupKV m fn with _ | e0
    · rw [hl] at hg; simp at hg
    · have hmem := lookup_mem m fn e0 hl
      have hk := ((wfB_dir_parts hwf).2 _ hmem).1
      refine ⟨hk, jsRemove m fn, ?_, ?_⟩
      · simp [delWalk, hasKey, hl]
      · have : lookupKV (jsRemove m fn) fn = none :=
          lookup_jsRemove_self m fn (wfB_dir_parts hwf).1
        simp [getWalk, this]
  | cons p ps ih =>
    intro n m fn e hwf hg
    obtain ⟨n', rfl⟩ := wfB_dir_pos hwf
    simp only [List.cons_append, getWalk] at hg
    rcases hl : lookupKV m p with _ | e0
    · rw [hl] at hg; simp at hg
    · rw [hl] at hg
      cases e0 with
      | file s =>
        have hg' : getWalk (Entry.file s) (ps ++ [fn]) = some e := hg
        rw [getWalk_file_ne_nil s (ps ++ [fn]) (by simp)] at hg'
        simp at hg'
      | dir mc =>
        have hmem := lookup_mem m p _ hl
        have hwfc := ((wfB_dir_parts hwf).2 _ hmem).2
        obtain ⟨hfn, mc', hdel, hgone⟩ := ih n' mc fn e hwfc hg
        refine ⟨hfn, jsInsert m p (.dir mc'), by simp [delWalk, hl, hdel], ?_⟩
        simp only [List.cons_append, getWalk, lookup_jsInsert_self]
        exact hgone

theorem getObjectByPath_startsWith (root : Dir) (P : Str) (e : Entry)
    (h1 : P ≠ ['~']) (hg : getObjectByPath root P = some e) :
    startsWithSlash P = true := by
  by_contra h
  have h' : startsWithSlash P = false := by
    cases hsw : startsWithSlash P
    · rfl
    · exact absurd hsw h
  unfold getObjectByPath at hg
  rw [if_neg h1, if_pos h'] at hg
  exact Option.noConfusion hg

theorem getObjectByPath_walk (root : Dir) (P : Str)
    (h1 : P ≠ ['~']) (h2 : startsWithSlash P = true) :
    getObjectByPath root P = getWalk (.dir root) (jsSplit (P.drop 1) '/') := by
  unfold getObjectByPath
  rw [if_neg h1, if_neg (by simp [h2])]

/-- Top-level round trip: a successful `setObjectByPath` makes
`getObjectByPath` at the same path return the written value. -/
theorem set_get_roundtrip (root : Dir) (P : Str) (V : Entry) (root' : Dir)
    (h : setObjectByPath root P V = some root') :
    getObjectByPath root' P = some V := by
  unfold setObjectByPath at h
  by_cases h1 : P = ['~']
  · rw [if_pos h1] at h; exact absurd h (by simp)
  rw [if_neg h1] at h
  by_cases h2 : startsWithSlash P = false
  · rw [if_pos h2] at h; exact absurd h (by simp)
  rw [if_neg h2] at h
  rcases hsl : splitLast (jsSplit (P.drop 1) '/') with _ | ⟨parents, fn⟩
  · rw [hsl] at h; exact absurd h (by simp)
  · rw [hsl] at h
    have h' : (if fn = [] then none else setWalk V fn root parents) = some root' := h
    by_cases h3 : fn = []
    · rw [if_pos h3] at h'; exact absurd h' (by simp)
    rw [if_neg h3] at h'
    have h2' : startsWithSlash P = true := by
      cases hsw : startsWithSlash P
      · exact absurd hsw h2
      · rfl
    rw [getObjectByPath_walk root' P h1 h2',
        splitLast_eq_append _ parents fn hsl]
    exact getWalk_setWalk parents root fn V root' h'

/-- In a well-formed tree, `setObjectByPath` succeeds at any non-root path
where `getObjectByPath` finds an entry, and the written value is then read
back. -/
theorem set_of_get (n : Nat) (root : Dir) (P : Str) (e V : Entry)
    (hwf : wfB n (.dir root) = true) (h1 : P ≠ ['~'])
    (hg : getObjectByPath root P = some e) :
    ∃ root', setObjectByPath root P V = some root' ∧
      getObjectByPath root' P = some V := by
  have h2 := getObjectByPath_startsWith root P e h1 hg
  rw [getObjectByPath_walk root P h1 h2] at hg
  obtain ⟨parents, fn, hsl⟩ :=
    splitLast_of_ne_nil (jsSplit (P.drop 1) '/') (jsSplit_ne_nil _ _)
  have hdecomp := splitLast_eq_append _ parents fn hsl
  rw [hdecomp] at hg
  obtain ⟨hfn, hset⟩ := setWalk_of_getWalk parents n root fn e hwf hg
  obtain ⟨root', hroot'⟩ := hset V
  refine ⟨root', ?_, ?_⟩
  · unfold setObjectByPath
    rw [if_neg h1, if_neg (by simp [h2]), hsl]
    show (if fn = [] then none else setWalk V fn root parents) = some root'
    rw [if_neg hfn]
    exact hroot'
  · rw [getObjectByPath_walk root' P h1 h2, hdecomp]
    exact getWalk_setWalk parents root fn V root' hroot'

/-- In a well-formed tree, `deleteObjectByPath` succeeds at any non-root
path where `getObjectByPath` finds an entry, after which `getObjectByPath`
at that path finds nothing. -/
theorem delete_of_get (n : Nat) (root : Dir) (P : Str) (e : Entry)
    (hwf : wfB n (.dir root) = true) (h1 : P ≠ ['~'])
    (hg : getObjectByPath root P = some e) :
    ∃ root', deleteObjectByPath root P = some root' ∧
      getObjectByPath root' P = none := by
  have h2 := getObjectByPath_startsWith root P e h1 hg
  rw [getObjectByPath_walk root P h1 h2] at hg
  obtain ⟨parents, fn, hsl⟩ :=
    splitLast_of_ne_nil (jsSplit (P.drop 1) '/') (jsSplit_ne_nil _ _)
  have hdecomp := splitLast_eq_append _ parents fn hsl
  rw [hdecomp] at hg
  obtain ⟨hfn, root', hdel, hgone⟩ := delWalk_of_getWalk parents n root fn e hwf hg
  refine ⟨root', ?_, ?_⟩
  · unfold deleteObjectByPath
    rw [if_neg h1, if_neg (by simp [h2]), hsl]
    show (if fn = [] then none else delWalk fn root parents) = some root'
    rw [if_neg hfn]
    exact hdel
  · rw [getObjectByPath_walk root' P h1 h2, hdecomp]
    exact hgone

/-- Deletion at the root `~` always fails. -/
theorem delete_root_fails (root : Dir) :
    deleteObjectByPath root ['~'] = none := by
  unfold deleteObjectByPath
  rw [if_pos rfl]

/-- Claim C1: the claim states that every filesystem command among ls,
cat, cd, mkdir, touch, rm, grep, wc, tree, head returns a single
permission-denied line and performs no VFS access when `auth.user` is
null.  The code violates this for `grep`, `wc` and `head`, which have no
auth check: here `head`, invoked with `auth.user = null`, reads the file
content out of the VFS tree and returns it, while `ls` on the same state
correctly returns the permission-denied line. -/
theorem c1_head_reads_vfs_without_auth :
    headCmd none ⟨[(str "notes.txt", Entry.file (str "hello"))], ['~']⟩
        [str "notes.txt"]
      = ([str "hello"], ⟨[(str "notes.txt", Entry.file (str "hello"))], ['~']⟩) ∧
    lsCmd none ⟨[(str "notes.txt", Entry.file (str "hello"))], ['~']⟩ []
      = ([permFsMsg], ⟨[(str "notes.txt", Entry.file (str "hello"))], ['~']⟩) := by
  exact ⟨rfl, rfl⟩

/-- Claim C2: for a session whose user is absent or not an admin, `sudo
<cmd> ...` returns only the sudoers-denial line (and leaves the state
untouched, so the subcommand's handler is never invoked); for an admin,
`sudo` re-dispatches the registered subcommand with the elevation flag
set to `true`. -/
theorem c2_sudo_policy (auth : Auth) (st : VfsState) (sub : Str)
    (rest : List Str) :
    (isAdmin auth = false →
      runCommand auth st (str "sudo") (sub :: rest) false
        = ([sudoDenialMsg], st)) ∧
    (isAdmin auth = true → registered sub = true →
      runCommand auth st (str "sudo") (sub :: rest) false
        = runCommand auth st sub rest true) := by
  constructor
  · intro h
    conv_lhs => rw [runCommand]
    rw [if_pos rfl, if_pos h]
  · intro h1 h2
    conv_lhs => rw [runCommand]
    rw [if_pos rfl, if_neg (by simp [h1])]
    show (if registered sub = true then runCommand auth st sub rest true
          else ([sudoNotFoundMsg sub], st)) = _
    rw [if_pos h2]

/-- Witness for C2: a non-admin running `sudo useradd bob pw123 admin`
gets exactly the sudoers-denial line with the state untouched, and an
admin's `sudo ls` is the elevated re-dispatch of `ls`. -/
theorem c2_sudo_policy_witness :
    isAdmin (some ⟨str "mallory", str "guest"⟩) = false ∧
    runCommand (some ⟨str "mallory", str "guest"⟩) ⟨[], ['~']⟩ (str "sudo")
        [str "useradd", str "bob", str "pw123", str "admin"] false
      = ([sudoDenialMsg], ⟨[], ['~']⟩) ∧
    isAdmin (some ⟨str "root", str "admin"⟩) = true ∧
    runCommand (some ⟨str "root", str "admin"⟩) ⟨[], ['~']⟩ (str "sudo")
        [str "ls"] false
      = runCommand (some ⟨str "root", str "admin"⟩) ⟨[], ['~']⟩ (str "ls") [] true :=
  ⟨by decide,
   (c2_sudo_policy (some ⟨str "mallory", str "guest"⟩) ⟨[], ['~']⟩
     (str "useradd") [str "bob", str "pw123", str "admin"]).1 (by decide),
   by decide,
   (c2_sudo_policy (some ⟨str "root", str "admin"⟩) ⟨[], ['~']⟩
     (str "ls") []).2 (by decide) (by decide)⟩

/-- Counterexample to claim C3 as stated: for the input path `/a/..` the
resolver returns the path verbatim, so the path used for storage/lookup
contains a literal `..` segment. -/
theorem c3_counterexample :
    resolvePath (str "/a/..") ['~'] = str "/a/.." ∧
    str ".." ∈ pathSegs (resolvePath (str "/a/..") ['~']) := by
  exact ⟨rfl, by decide⟩

/-- Claim C3 (amended): for a relative input (no leading `/`) and a
canonical current path, `resolvePath` produces a canonical path (`~` or
`/`-joined non-empty segments with no `.` or `..`); an input starting
with `/`, other than `/` itself, is returned verbatim, without any
resolution of `.` or `..` segments. -/
theorem c3_resolvePath_canonical (p r : Str) :
    (canonical p → startsWithSlash r = false → canonical (resolvePath r p)) ∧
    (startsWithSlash r = true → r ≠ ['/'] → resolvePath r p = r) :=
  ⟨fun hp hr => resolvePath_rel_canonical p r hp hr,
   fun h1 h2 => resolvePath_absolute r p h1 h2⟩

/-- Witness for C3 (amended): a concrete relative resolution is canonical
and a concrete absolute input passes through verbatim. -/
theorem c3_resolvePath_canonical_witness :
    canonical (resolvePath (str "docs/../notes") (str "/home")) ∧
    resolvePath (str "/a/b") (str "/x") = str "/a/b" :=
  ⟨(c3_resolvePath_canonical (str "/home") (str "docs/../notes")).1
      (by decide) (by decide),
   (c3_resolvePath_canonical (str "/x") (str "/a/b")).2 (by decide) (by decide)⟩

/-- Claim C4: whenever `setObjectByPath` succeeds on a tree at a
canonical path, `getObjectByPath` on the updated tree at that path
returns exactly the written value. -/
theorem c4_set_get (root : Dir) (P : Str) (V : Entry) (root' : Dir)
    (_hc : canonical P) (h : setObjectByPath root P V = some root') :
    getObjectByPath root' P = some V :=
  set_get_roundtrip root P V root' h

/-- Witness for C4: writing the file `x` at `/a` in the empty tree and
reading it back. -/
theorem c4_set_get_witness :
    getObjectByPath [(str "a", Entry.file (str "x"))] (str "/a")
      = some (Entry.file (str "x")) :=
  c4_set_get [] (str "/a") (Entry.file (str "x"))
    [(str "a", Entry.file (str "x"))] (by decide) (by rfl)

/-- Claim C6: the claim states that `watch -c N <cmd>` executes the
command exactly N times; in the code the initial execution happens before
the interval is installed and the interval tick that clears the timer
still executes the command, so `watch -n 1 -c 3 date` executes `date`
four times, not three. -/
theorem c6_watch_count : watchExecutions 3 = 4 := by
  rw [watchExecutions, if_pos (by norm_num), watchTicks]
  rw [if_neg (by norm_num), watchTicks]
  rw [if_neg (by norm_num), watchTicks]
  rw [if_pos (by norm_num)]

/-- Claim C7: for every canonical current path and relative input with no
leading `/`, the resolved path contains no literal `.` or `..` segment;
and resolving `..` against the root `~` yields `~` (a no-op, not an
error). -/
theorem c7_relative_no_dots :
    (∀ (p r : Str), canonical p → startsWithSlash r = false →
      ∀ s ∈ pathSegs (resolvePath r p), s ≠ str "." ∧ s ≠ str "..") ∧
    resolvePath (str "..") ['~'] = ['~'] := by
  constructor
  · intro p r hp hr
    exact canonical_no_dots _ (resolvePath_rel_canonical p r hp hr)
  · rfl

/-- Witness for C7: a concrete application of the quantified part at the
canonical current path `/home/docs`, the relative input `../x`, and the
segment `home` of the resolved path. -/
theorem c7_relative_no_dots_witness :
    canonical (str "/home/docs") ∧
    (str "home" ≠ str "." ∧ str "home" ≠ str "..") :=
  ⟨by decide,
   c7_relative_no_dots.1 (str "/home/docs") (str "../x") (by decide)
     (by decide) (str "home") (by decide)⟩

/-- Claim C8: a handler that throws is caught at the normalization
boundary of `processCommand` and converted into an envelope whose text is
the single line `Error: <message>`; the normalization is total, so no
exception propagates to the caller. -/
theorem c8_exception_normalized (msg : Str) :
    normalizeOutcome (Except.error msg)
      = ⟨[str "Error: " ++ msg], none⟩ ∧
    (normalizeOutcome (Except.error msg)).text.length = 1 :=
  ⟨rfl, rfl⟩

/-- Counterexample to claim C5 as stated: the claim quantifies over every
path resolving to a directory with at least one entry, which includes the
root.  `rm -r /` resolves to `~`, a non-empty directory here, yet
`deleteObjectByPath` refuses the root, so the command silently returns no
output, the tree is unchanged, and a subsequent get still finds the
directory rather than `undefined`. -/
theorem c5_counterexample :
    resolvePath (str "/") ['~'] = ['~'] ∧
    getObjectByPath [(str "a.txt", Entry.file (str "x"))] ['~']
      = some (Entry.dir [(str "a.txt", Entry.file (str "x"))]) ∧
    rmCmd (some ⟨str "alice", str "guest"⟩)
        ⟨[(str "a.txt", Entry.file (str "x"))], ['~']⟩ [str "-r", str "/"]
      = ([], ⟨[(str "a.txt", Entry.file (str "x"))], ['~']⟩) :=
  ⟨rfl, rfl, rfl⟩

/-- Claim C5 (amended): for an authenticated session and a target
resolving to a non-root directory with at least one entry (in a
well-formed tree), `rm` without `-r` reports the directory-not-empty line
and leaves the state unchanged, while `rm -r` succeeds with empty output
and a subsequent get for that path returns nothing.  (On the root `~`
itself, `rm -r` instead silently leaves the tree unchanged, as the
counterexample shows.) -/
theorem c5_rm_nonempty_dir (u : User) (st : VfsState) (target : Str)
    (n : Nat) (m : Dir)
    (hwf : wfB n (.dir st.vfs) = true)
    (htarget : target ≠ []) (hflag : target ≠ str "-r")
    (hroot : resolvePath target st.currentPath ≠ ['~'])
    (hget : getObjectByPath st.vfs (resolvePath target st.currentPath)
      = some (.dir m))
    (hne : m ≠ []) :
    rmCmd (some u) st [target] = ([rmNotEmptyMsg target], st) ∧
    ∃ v', rmCmd (some u) st [str "-r", target] = ([], ⟨v', st.currentPath⟩) ∧
      getObjectByPath v' (resolvePath target st.currentPath) = none := by
  have hmE : isNonemptyDirE (.dir m) = true := by
    cases m with
    | nil => exact absurd rfl hne
    | cons a l => rfl
  constructor
  · unfold rmCmd
    dsimp only
    rw [if_neg htarget, if_neg hflag]
    unfold rmGo
    dsimp only
    rw [hget]
    dsimp only
    rw [if_pos (by simp [hmE])]
  · obtain ⟨v', hdel, hnone⟩ :=
      delete_of_get n st.vfs _ (.dir m) hwf hroot hget
    refine ⟨v', ?_, hnone⟩
    unfold rmCmd
    dsimp only
    rw [if_neg (show ¬ str "-r" = ([] : Str) by decide), if_pos rfl,
        if_neg htarget]
    unfold rmGo
    dsimp only
    rw [hget]
    dsimp only
    rw [if_neg (by simp), hdel]

/-- Witness for C5 (amended): removing the non-empty directory `/d` in
the tree with a single directory `d` holding the file `f`. -/
theorem c5_rm_nonempty_dir_witness :
    rmCmd (some ⟨str "alice", str "guest"⟩)
        ⟨[(str "d", Entry.dir [(str "f", Entry.file (str "x"))])], ['~']⟩
        [str "d"]
      = ([rmNotEmptyMsg (str "d")],
         ⟨[(str "d", Entry.dir [(str "f", Entry.file (str "x"))])], ['~']⟩) ∧
    ∃ v', rmCmd (some ⟨str "alice", str "guest"⟩)
        ⟨[(str "d", Entry.dir [(str "f", Entry.file (str "x"))])], ['~']⟩
        [str "-r", str "d"]
      = ([], ⟨v', ['~']⟩) ∧
      getObjectByPath v' (resolvePath (str "d") ['~']) = none :=
  c5_rm_nonempty_dir ⟨str "alice", str "guest"⟩
    ⟨[(str "d", Entry.dir [(str "f", Entry.file (str "x"))])], ['~']⟩
    (str "d") 3 [(str "f", Entry.file (str "x"))]
    (by decide) (by decide) (by decide) (by decide) (by rfl)
    (List.cons_ne_nil _ _)

/-- Claim C9: for an authenticated session, `cd` updates the current path
exactly when the resolved target exists as a directory; otherwise it
reports the no-such-file-or-directory line and leaves the state
unchanged; in both cases the tree itself is untouched. -/
theorem c9_cd_frame (u : User) (st : VfsState) (args : List Str) :
    (∀ m, getObjectByPath st.vfs (resolvePath (argOr args ['~']) st.currentPath)
        = some (.dir m) →
      cdCmd (some u) st args
        = ([], ⟨st.vfs, resolvePath (argOr args ['~']) st.currentPath⟩)) ∧
    (isDirOpt (getObjectByPath st.vfs
        (resolvePath (argOr args ['~']) st.currentPath)) = false →
      cdCmd (some u) st args = ([cdErrMsg (argOr args ['~'])], st)) := by
  constructor
  · intro m hm
    unfold cdCmd
    dsimp only
    rw [hm]
  · intro hd
    unfold cdCmd
    dsimp only
    rcases hget : getObjectByPath st.vfs
        (resolvePath (argOr args ['~']) st.currentPath) with _ | e
    · rfl
    · cases e with
      | file s => rfl
      | dir m => rw [hget] at hd; exact absurd hd (by simp [isDirOpt])

/-- Witness for C9: `cd docs` moves the cursor to `/docs` without
touching the tree; `cd nope` reports the error and changes nothing. -/
theorem c9_cd_frame_witness :
    cdCmd (some ⟨str "alice", str "guest"⟩)
        ⟨[(str "docs", Entry.dir [])], ['~']⟩ [str "docs"]
      = ([], ⟨[(str "docs", Entry.dir [])], str "/docs"⟩) ∧
    cdCmd (some ⟨str "alice", str "guest"⟩)
        ⟨[(str "docs", Entry.dir [])], ['~']⟩ [str "nope"]
      = ([cdErrMsg (str "nope")], ⟨[(str "docs", Entry.dir [])], ['~']⟩) :=
  ⟨(c9_cd_frame ⟨str "alice", str "guest"⟩
      ⟨[(str "docs", Entry.dir [])], ['~']⟩ [str "docs"]).1 [] (by rfl),
   (c9_cd_frame ⟨str "alice", str "guest"⟩
      ⟨[(str "docs", Entry.dir [])], ['~']⟩ [str "nope"]).2 (by rfl)⟩

theorem mkdirUsage_ne_exists (a : Str) : mkdirUsageMsg ≠ mkdirExistsMsg a := by
  intro h
  have h2 : (some 'U' : Option Char) = some 'm' := congrArg List.head? h
  exact absurd h2 (by decide)

theorem mkdirInvalid_ne_exists (a : Str) :
    mkdirInvalidMsg a ≠ mkdirExistsMsg a := by
  intro h
  unfold mkdirInvalidMsg mkdirExistsMsg at h
  exact absurd (List.append_cancel_left h) (by decide)

/-- Claim C10: when the resolved target of `mkdir` exists as an empty
file, mkdir does not report File exists: the JS truthiness check passes
it over, and the empty file is silently replaced by an empty directory;
conversely the File-exists error is produced only when the entry found at
the resolved target is truthy. -/
theorem c10_mkdir_empty_file (u : User) (st : VfsState) (a : Str)
    (rest : List Str) (n : Nat)
    (hwf : wfB n (.dir st.vfs) = true) (ha : a ≠ [])
    (hget : getObjectByPath st.vfs (resolvePath a st.currentPath)
      = some (.file [])) :
    (∃ v', mkdirCmd (some u) st (a :: rest) = ([], ⟨v', st.currentPath⟩) ∧
      getObjectByPath v' (resolvePath a st.currentPath) = some (.dir [])) ∧
    (∀ (u' : User) (st' : VfsState) (a' : Str) (rest' : List Str),
      (mkdirCmd (some u') st' (a' :: rest')).1 = [mkdirExistsMsg a'] →
      truthyOpt (getObjectByPath st'.vfs
        (resolvePath a' st'.currentPath)) = true) := by
  have hroot : resolvePath a st.currentPath ≠ ['~'] := by
    intro hP
    rw [hP] at hget
    unfold getObjectByPath at hget
    rw [if_pos rfl] at hget
    injection hget with hE
    exact Entry.noConfusion hE
  obtain ⟨v', hset, hback⟩ :=
    set_of_get n st.vfs _ (.file []) (.dir []) hwf hroot hget
  refine ⟨⟨v', ?_, hback⟩, ?_⟩
  · unfold mkdirCmd
    dsimp only
    rw [if_neg ha, hget]
    rw [if_neg (show ¬ truthyOpt (some (Entry.file [])) = true by decide)]
    rw [hset]
  · intro u' st' a' rest' hout
    unfold mkdirCmd at hout
    dsimp only at hout
    by_cases ha' : a' = []
    · rw [if_pos ha'] at hout
      dsimp only at hout
      injection hout with h1 _
      exact absurd h1 (mkdirUsage_ne_exists a')
    · rw [if_neg ha'] at hout
      by_cases htr : truthyOpt (getObjectByPath st'.vfs
          (resolvePath a' st'.currentPath)) = true
      · exact htr
      · rw [if_neg htr] at hout
        rcases hs : setObjectByPath st'.vfs
            (resolvePath a' st'.currentPath) (.dir []) with _ | v''
        · rw [hs] at hout
          dsimp only at hout
          injection hout with h1 _
          exact absurd h1 (mkdirInvalid_ne_exists a')
        · rw [hs] at hout
          dsimp only at hout
          exact absurd hout (by simp)

/-- Witness for C10: in the tree holding the single empty file `f`,
`mkdir f` succeeds silently and replaces the file with an empty
directory. -/
theorem c10_mkdir_empty_file_witness :
    ∃ v', mkdirCmd (some ⟨str "alice", str "guest"⟩)
        ⟨[(str "f", Entry.file [])], ['~']⟩ [str "f"]
      = ([], ⟨v', ['~']⟩) ∧
      getObjectByPath v' (resolvePath (str "f") ['~'])
        = some (Entry.dir []) :=
  (c10_mkdir_empty_file ⟨str "alice", str "guest"⟩
    ⟨[(str "f", Entry.file [])], ['~']⟩ (str "f") [] 2
    (by decide) (by decide) (by rfl)).1

end TerminalSpec
